import Mathlib

/-!
Verification development for the C extension module `SEPCMaths.c` of the
SEPModules repository.

The module exposes two pure functions:

* `iterateRationalApproximation(a, b, lowerA, lowerB, upperA, upperB,
  mantissa, precision, microIterations)` — a Stern–Brocot–style mediant
  search, written as a `while` loop whose body runs batches of
  `microIterations` inner mediant steps;
* `intSign(num, zero=0)` — a sign function computed by the bit trick
  `!(num & num) ? zero : (num >> 31) | 1` on a 32-bit two's-complement
  `int`.

Embedding conventions:

* The C `int` state is embedded as `Int`.  (In C the mediant additions can
  overflow, which is undefined behaviour for signed `int`; the embedding
  uses unbounded integers, matching the exact-arithmetic reading of the
  algorithm.  `intSign` is interpreted on the 32-bit range explicitly.)
* The C `double` values are embedded as `DVal`: finite doubles are
  idealized as exact rationals (every finite IEEE-754 double is a
  rational), and the special values `+inf`, `-inf`, `nan` that the raw
  division `(double) a / b` produces when `b == 0` are represented
  explicitly, with IEEE comparison semantics (every ordered comparison
  with `nan` is false).
* The local variable `ab` in the C code always holds `(double) a / b` for
  the current `a`, `b` (it is recomputed after every update), so the
  embedding computes `ratio a b` at each use instead of caching it.
* The nested loops are embedded as structural recursion: `innerBatch`
  is the inner `for` loop (with its early `break` on an exact hit), and
  `runApprox` is the outer `while` loop, driven by a fuel parameter;
  `runApprox` returns `none` when the fuel is exhausted, so
  `runApprox … fuel s = some r` states that the C loop terminates with
  result `r` within `fuel` outer passes.
-/

namespace SEPCMaths

/-- Model of the C `double` values arising in `iterateRationalApproximation`:
a finite value (idealized as an exact rational), the two infinities, or NaN. -/
inductive DVal : Type where
  | fin (q : ℚ)
  | inf
  | ninf
  | nan
deriving DecidableEq

/-- The C expression `(double) a / b`: exact rational division when `b ≠ 0`;
when `b == 0` the divisor converts to `+0.0`, so the IEEE quotient is `+inf`,
`-inf` or `nan` according to the sign of `a`. -/
def ratio (a b : Int) : DVal :=
  if b ≠ 0 then .fin ((a : ℚ) / (b : ℚ))
  else if 0 < a then .inf
  else if a < 0 then .ninf
  else .nan

/-- The C expression `ab - mantissa` (`mantissa` is a finite double). -/
def dsub : DVal → ℚ → DVal
  | .fin q, m => .fin (q - m)
  | .inf, _ => .inf
  | .ninf, _ => .ninf
  | .nan, _ => .nan

/-- The C expression `fabs(x)`. -/
def dabs : DVal → DVal
  | .fin q => .fin |q|
  | .inf => .inf
  | .ninf => .inf
  | .nan => .nan

/-- The C comparison `x >= p` with `p` a finite double; false on NaN. -/
def dge : DVal → ℚ → Bool
  | .fin q, p => decide (p ≤ q)
  | .inf, _ => true
  | .ninf, _ => false
  | .nan, _ => false

/-- The C comparison `x < m` with `m` a finite double; false on NaN. -/
def dlt : DVal → ℚ → Bool
  | .fin q, m => decide (q < m)
  | .inf, _ => false
  | .ninf, _ => true
  | .nan, _ => false

/-- The C comparison `x == m` with `m` a finite double; false on NaN. -/
def deq : DVal → ℚ → Bool
  | .fin q, m => decide (q = m)
  | .inf, _ => false
  | .ninf, _ => false
  | .nan, _ => false

/-- The mutable integer state of `iterateRationalApproximation`:
the current candidate fraction `a/b` and the two bracketing fractions
`lowerA/lowerB` and `upperA/upperB`. -/
structure RState : Type where
  a : Int
  b : Int
  lowerA : Int
  lowerB : Int
  upperA : Int
  upperB : Int
deriving DecidableEq

/-- One iteration of the body of the inner `for` loop, after the
`if(ab == mantissa) break;` test:

    if(ab < mantissa) { lowerA = a; lowerB = b; a += upperA; b += upperB; }
    else              { upperA = a; upperB = b; a += lowerA; b += lowerB; }
-/
def innerStep (m : ℚ) (s : RState) : RState :=
  if dlt (ratio s.a s.b) m then
    { s with lowerA := s.a, lowerB := s.b, a := s.a + s.upperA, b := s.b + s.upperB }
  else
    { s with upperA := s.a, upperB := s.b, a := s.a + s.lowerA, b := s.b + s.lowerB }

/-- The inner `for(i = 0; i < microIterations; i++)` loop, including the early
`break` when `ab == mantissa`. -/
def innerBatch (m : ℚ) : Nat → RState → RState
  | 0, s => s
  | n + 1, s => if deq (ratio s.a s.b) m then s else innerBatch m n (innerStep m s)

/-- The guard of the outer `while` loop:
`(double) fabs(ab - mantissa) >= precision`. -/
def outerCond (m p : ℚ) (s : RState) : Bool :=
  dge (dabs (dsub (ratio s.a s.b) m)) p

/-- The outer `while` loop of `iterateRationalApproximation`, with fuel
counting outer passes: as long as the guard holds, run a batch of
`microIterations` inner steps (`microIterations` is a C `int`; a
non-positive value makes the `for` loop run zero times, hence `Int.toNat`);
when the guard fails, return `(a, b)`.  `none` means the fuel ran out
before the loop exited. -/
def runApprox (m p : ℚ) (micro : Int) : Nat → RState → Option (Int × Int)
  | 0, _ => none
  | fuel + 1, s =>
    if outerCond m p s then runApprox m p micro fuel (innerBatch m micro.toNat s)
    else some (s.a, s.b)

/-- `intSign(num, zero=0)` from `SEPCMaths.c`:
`return !(num & num) ? zero : (num >> 31) | 1;` where `num` is a 32-bit
two's-complement `int` (embedded as an `Int` in the 32-bit range; `>>` on a
negative signed `int` is the arithmetic shift, which is what `Int.shiftRight`
performs).  The keyword argument `zero` defaults to `0`. -/
def intSign (num : Int) (zero : Int := 0) : Int :=
  if Int.land num num = 0 then zero else Int.lor (Int.shiftRight num 31) 1

/-- The bracketing property stated by the spec: the two bound fractions are
ratios with positive denominators and they enclose the target,
`lowerA/lowerB <= mantissa <= upperA/upperB` (exact rational arithmetic). -/
def bracketInv (m : ℚ) (s : RState) : Prop :=
  0 < s.lowerB ∧ 0 < s.upperB ∧
    (s.lowerA : ℚ) / s.lowerB ≤ m ∧ m ≤ (s.upperA : ℚ) / s.upperB

/-- The candidate is the mediant of the two bounds (numerators and
denominators add).  This holds after every executed inner step. -/
def mediantInv (s : RState) : Prop :=
  s.a = s.lowerA + s.upperA ∧ s.b = s.lowerB + s.upperB

/-- The length of the bracketing interval `[lowerA/lowerB, upperA/upperB]`
in exact rational arithmetic. -/
def width (s : RState) : ℚ :=
  (s.upperA : ℚ) / s.upperB - (s.lowerA : ℚ) / s.lowerB

/-- The cross-determinant of the two bounds; under `mediantInv` it is
unchanged by inner steps, and `width s = Dt s / Pr s`. -/
def Dt (s : RState) : Int :=
  s.upperA * s.lowerB - s.lowerA * s.upperB

/-- The product of the two bound denominators; it grows strictly with every
executed inner step. -/
def Pr (s : RState) : Int :=
  s.lowerB * s.upperB

/-- The full loop invariant used in the termination proof. -/
def SInv (m : ℚ) (s : RState) : Prop :=
  0 < s.b ∧ bracketInv m s ∧ mediantInv s

/-! Basic lemmas about the double model. -/

lemma ratio_of_ne_zero (a b : Int) (hb : b ≠ 0) : ratio a b = .fin ((a : ℚ) / b) := by
  simp [ratio, hb]

lemma dlt_imp_dge_false {x : DVal} {p : ℚ} (hx : x ≠ .ninf) (h : dlt x p = true) :
    dge x p = false := by
  cases x with
  | fin q =>
    simp only [dlt, decide_eq_true_eq] at h
    simp only [dge, decide_eq_false_iff_not, not_le]
    exact h
  | inf => simp [dlt] at h
  | ninf => exact absurd rfl hx
  | nan => simp [dge]

lemma dge_false_imp_dlt {x : DVal} {p : ℚ} (hx : x ≠ .nan) (h : dge x p = false) :
    dlt x p = true := by
  cases x with
  | fin q =>
    simp only [dge, decide_eq_false_iff_not, not_le] at h
    simp only [dlt, decide_eq_true_eq]
    exact h
  | inf => simp [dge] at h
  | ninf => simp [dlt]
  | nan => exact absurd rfl hx

lemma dabs_dsub_ne_ninf (x : DVal) (m : ℚ) : dabs (dsub x m) ≠ .ninf := by
  cases x <;> simp [dsub, dabs]

lemma dabs_dsub_ne_nan_of (x : DVal) (m : ℚ) (hx : x ≠ .nan) :
    dabs (dsub x m) ≠ .nan := by
  cases x <;> simp_all [dsub, dabs]

lemma outerCond_eq_of_ne_zero (m p : ℚ) (s : RState) (hb : s.b ≠ 0) :
    outerCond m p s = decide (p ≤ |(s.a : ℚ) / s.b - m|) := by
  simp [outerCond, ratio_of_ne_zero _ _ hb, dsub, dabs, dge]

/-! Case analysis lemmas for the inner step, for a finite candidate ratio. -/

lemma innerStep_of_lt (m : ℚ) (s : RState) (hb : s.b ≠ 0)
    (h : (s.a : ℚ) / s.b < m) :
    innerStep m s = ⟨s.a + s.upperA, s.b + s.upperB, s.a, s.b, s.upperA, s.upperB⟩ := by
  obtain ⟨a, b, lA, lB, uA, uB⟩ := s
  simp_all [innerStep, ratio_of_ne_zero, dlt]

lemma innerStep_of_ge (m : ℚ) (s : RState) (hb : s.b ≠ 0)
    (h : m ≤ (s.a : ℚ) / s.b) :
    innerStep m s = ⟨s.a + s.lowerA, s.b + s.lowerB, s.lowerA, s.lowerB, s.a, s.b⟩ := by
  obtain ⟨a, b, lA, lB, uA, uB⟩ := s
  simp_all [innerStep, ratio_of_ne_zero, dlt, not_lt.2 h]

/-! Mediant inequalities in exact rational arithmetic. -/

lemma mediant_le_left {p q r s : ℚ} (hq : 0 < q) (hs : 0 < s) (h : p / q ≤ r / s) :
    p / q ≤ (p + r) / (q + s) := by
  rw [div_le_div_iff₀ hq hs] at h
  rw [div_le_div_iff₀ hq (by linarith)]
  nlinarith

lemma mediant_le_right {p q r s : ℚ} (hq : 0 < q) (hs : 0 < s) (h : p / q ≤ r / s) :
    (p + r) / (q + s) ≤ r / s := by
  rw [div_le_div_iff₀ hq hs] at h
  rw [div_le_div_iff₀ (by linarith) hs]
  nlinarith

lemma mediant_lt_left {p q r s : ℚ} (hq : 0 < q) (hs : 0 < s) (h : p / q < r / s) :
    p / q < (p + r) / (q + s) := by
  rw [div_lt_div_iff₀ hq hs] at h
  rw [div_lt_div_iff₀ hq (by linarith)]
  nlinarith

lemma mediant_lt_right {p q r s : ℚ} (hq : 0 < q) (hs : 0 < s) (h : p / q < r / s) :
    (p + r) / (q + s) < r / s := by
  rw [div_lt_div_iff₀ hq hs] at h
  rw [div_lt_div_iff₀ (by linarith) hs]
  nlinarith

/-- C3: each inner step of `iterateRationalApproximation` performs exactly
this transition (stated for a finite candidate ratio, i.e. `b ≠ 0`): when the
ratio `a/b` is below `mantissa`, the candidate becomes the new lower bound and
the next candidate adds the upper bound componentwise; when the ratio is above
`mantissa` (the complementary branch), the candidate becomes the new upper
bound and the next candidate adds the lower bound componentwise. -/
theorem c3_step_transition (m : ℚ) (s : RState) (hb : s.b ≠ 0) :
    ((s.a : ℚ) / s.b < m →
      innerStep m s = ⟨s.a + s.upperA, s.b + s.upperB, s.a, s.b, s.upperA, s.upperB⟩) ∧
    (m < (s.a : ℚ) / s.b →
      innerStep m s = ⟨s.a + s.lowerA, s.b + s.lowerB, s.lowerA, s.lowerB, s.a, s.b⟩) :=
  ⟨fun h => innerStep_of_lt m s hb h, fun h => innerStep_of_ge m s hb h.le⟩

/-- Witness for C3 at the spec's canonical input `0/1` with bounds
`0/1`, `1/1` and target `1/2`. -/
theorem c3_step_transition_witness :
    innerStep (1/2) ⟨0, 1, 0, 1, 1, 1⟩ = ⟨1, 2, 0, 1, 1, 1⟩ :=
  (c3_step_transition (1/2) ⟨0, 1, 0, 1, 1, 1⟩ (by decide)).1 (by norm_num)

/-- C9: a zero denominator is not rejected with an error: the raw
floating-point division yields an infinite or NaN ratio (by the sign of the
numerator), which is a legitimate `DVal` that flows into the loop's
comparisons (in particular the equality test simply evaluates to `false`)
rather than raising a domain error. -/
theorem c9_zero_denominator_propagates (m : ℚ) (a : Int) :
    (ratio a 0 = .inf ∨ ratio a 0 = .ninf ∨ ratio a 0 = .nan) ∧
    (∀ q : ℚ, ratio a 0 ≠ .fin q) ∧
    deq (ratio a 0) m = false := by
  rcases lt_trichotomy a 0 with h | h | h
  · refine ⟨Or.inr (Or.inl ?_), ?_, ?_⟩ <;> simp [ratio, h, not_lt.2 h.le, deq]
  · subst h
    refine ⟨Or.inr (Or.inr ?_), ?_, ?_⟩ <;> simp [ratio, deq]
  · refine ⟨Or.inl ?_, ?_, ?_⟩ <;> simp [ratio, h, deq]

/-- C10: when the initial candidate is already within tolerance under the
floating-point comparison (`|a/b - mantissa| < precision` at entry), the
outer guard fails immediately and the call returns the input pair `(a, b)`
unchanged, having executed no mediant step. -/
theorem c10_entry_within_tolerance (m p : ℚ) (micro : Int) (s : RState) (fuel : Nat)
    (h : dlt (dabs (dsub (ratio s.a s.b) m)) p = true) :
    runApprox m p micro (fuel + 1) s = some (s.a, s.b) := by
  rw [runApprox, outerCond, dlt_imp_dge_false (dabs_dsub_ne_ninf _ _) h]
  simp

/-- Witness for C10: candidate `2/3`, target `1/2`, precision `1/4`. -/
theorem c10_entry_within_tolerance_witness :
    runApprox (1/2) (1/4) 7 1 ⟨2, 3, 0, 1, 1, 1⟩ = some (2, 3) :=
  c10_entry_within_tolerance (1/2) (1/4) 7 ⟨2, 3, 0, 1, 1, 1⟩ 0
    (by norm_num [ratio, dsub, dabs, dlt, abs_of_nonneg])

/-- C7: when the candidate ratio is already exactly equal to `mantissa` and
`precision > 0`, every inner batch stops immediately at the equality break
(the state is unchanged), and the call returns `(a, b)` unchanged. -/
theorem c7_exact_hit (m p : ℚ) (micro : Int) (s : RState) (hp : 0 < p)
    (h : ratio s.a s.b = .fin m) :
    (∀ n : Nat, innerBatch m n s = s) ∧
    (∀ fuel : Nat, runApprox m p micro (fuel + 1) s = some (s.a, s.b)) := by
  constructor
  · intro n
    cases n with
    | zero => rfl
    | succ k => rw [innerBatch, h]; simp [deq]
  · intro fuel
    rw [runApprox, outerCond, h]
    simp [dsub, dabs, dge, not_le.2 hp]

/-- Witness for C7: candidate `1/2` equals the target `1/2` exactly. -/
theorem c7_exact_hit_witness :
    innerBatch (1/2) 5 ⟨1, 2, 0, 1, 1, 1⟩ = ⟨1, 2, 0, 1, 1, 1⟩ ∧
    runApprox (1/2) (1/1000) 3 1 ⟨1, 2, 0, 1, 1, 1⟩ = some (1, 2) := by
  have h := c7_exact_hit (1/2) (1/1000) 3 ⟨1, 2, 0, 1, 1, 1⟩ (by norm_num)
    (by norm_num [ratio])
  exact ⟨h.1 5, h.2 0⟩

/-- C8: when `microIterations <= 0` the inner `for` loop runs zero times, so
an outer pass leaves the state unchanged; if on top of that the outer guard
holds at entry (`|a/b - mantissa| >= precision` under the floating-point
comparison), the `while` loop never exits: the run returns `none` for every
amount of fuel. -/
theorem c8_nonpositive_micro_diverges (m p : ℚ) (micro : Int) (s : RState)
    (hmicro : micro ≤ 0) (h : outerCond m p s = true) :
    innerBatch m micro.toNat s = s ∧
    (∀ fuel : Nat, runApprox m p micro fuel s = none) := by
  have htn : micro.toNat = 0 := Int.toNat_of_nonpos hmicro
  have hbatch : innerBatch m micro.toNat s = s := by rw [htn]; rfl
  refine ⟨hbatch, ?_⟩
  intro fuel
  induction fuel with
  | zero => rfl
  | succ k ih => rw [runApprox, if_pos h, hbatch, ih]

/-- Witness for C8: `micro = 0`, candidate `1/1`, target `0`, precision `1/2`. -/
theorem c8_nonpositive_micro_diverges_witness :
    innerBatch 0 (Int.toNat 0) ⟨1, 1, 0, 1, 1, 1⟩ = ⟨1, 1, 0, 1, 1, 1⟩ ∧
    runApprox 0 (1/2) 0 5 ⟨1, 1, 0, 1, 1, 1⟩ = none := by
  have h := c8_nonpositive_micro_diverges 0 (1/2) 0 ⟨1, 1, 0, 1, 1, 1⟩ (le_refl 0)
    (by norm_num [outerCond, ratio, dsub, dabs, dge, abs_of_nonneg])
  exact ⟨h.1, h.2 5⟩

/-- C2 (amended): whenever `iterateRationalApproximation` returns normally
and the final ratio is not NaN (the returned pair is not `0/0`), the returned
pair satisfies `|a/b - mantissa| < precision` under the floating-point
comparison — the loop can only exit through the failure of its guard. -/
theorem c2_tolerance_on_return (m p : ℚ) (micro : Int) (fuel : Nat) (s : RState)
    (a b : Int) (hrun : runApprox m p micro fuel s = some (a, b))
    (hnn : ratio a b ≠ .nan) :
    dlt (dabs (dsub (ratio a b) m)) p = true := by
  induction fuel generalizing s with
  | zero => simp [runApprox] at hrun
  | succ k ih =>
    rw [runApprox] at hrun
    by_cases h : outerCond m p s = true
    · rw [if_pos h] at hrun
      exact ih _ hrun
    · rw [if_neg h] at hrun
      obtain ⟨ha, hb⟩ : s.a = a ∧ s.b = b := by simpa using hrun
      subst ha
      subst hb
      have hfalse : outerCond m p s = false := by simpa using h
      rw [outerCond] at hfalse
      exact dge_false_imp_dlt (dabs_dsub_ne_nan_of _ _ hnn) hfalse

/-- Witness for C2: a run that returns `(1, 2)` on target `1/2`. -/
theorem c2_tolerance_on_return_witness :
    dlt (dabs (dsub (ratio 1 2) (1/2))) (1/4) = true :=
  c2_tolerance_on_return (1/2) (1/4) 1 1 ⟨1, 2, 0, 1, 1, 1⟩ 1 2
    (by norm_num [runApprox, outerCond, ratio, dsub, dabs, dge, abs_of_nonneg])
    (by rw [ratio_of_ne_zero 1 2 (by decide)]; exact fun h => DVal.noConfusion h)

/-- Counterexample to C2 as stated: with the candidate `0/0` the entry ratio
is NaN, the guard `fabs(NaN - mantissa) >= precision` is false (NaN
comparisons are false), so the call returns `(0, 0)` normally — yet
`|0/0 - mantissa| < precision` is also false under floating-point
evaluation, so the returned pair is not within tolerance. -/
theorem c2_counterexample :
    runApprox (1/2) (1/4) 1 1 ⟨0, 0, 0, 1, 1, 1⟩ = some (0, 0) ∧
    dlt (dabs (dsub (ratio 0 0) (1/2))) (1/4) = false := by
  constructor
  · norm_num [runApprox, outerCond, ratio, dsub, dabs, dge]
  · norm_num [ratio, dsub, dabs, dlt]

lemma int_land_self (n : Int) : Int.land n n = n := by
  cases n with
  | ofNat k =>
    show Int.land (Int.ofNat k) (Int.ofNat k) = Int.ofNat k
    simp [Int.land]
  | negSucc k =>
    show Int.land (Int.negSucc k) (Int.negSucc k) = Int.negSucc k
    simp [Int.land]

/-- C6: on the 32-bit two's-complement range (including `INT_MIN`), the bit
trick `!(num & num) ? zero : (num >> 31) | 1` returns `zero` for `num = 0`,
`1` for positive `num` and `-1` for negative `num`; omitting the second
argument defaults it to `0`. -/
theorem c6_intSign_correct (num zero : Int) (h1 : -(2 ^ 31) ≤ num)
    (h2 : num < 2 ^ 31) :
    intSign num zero = (if num = 0 then zero else if 0 < num then 1 else -1) ∧
    intSign num = intSign num 0 := by
  refine ⟨?_, rfl⟩
  rw [intSign, int_land_self]
  by_cases h0 : num = 0
  · simp [h0]
  · rw [if_neg h0, if_neg h0]
    cases num with
    | ofNat k =>
      have hk : k < 2 ^ 31 := by
        rw [Int.ofNat_eq_natCast] at h2
        exact_mod_cast h2
      have hk0 : k ≠ 0 := by
        intro h
        exact h0 (by simp [h])
      have hsh : k >>> 31 = 0 := by
        rw [Nat.shiftRight_eq_div_pow]
        exact Nat.div_eq_of_lt hk
      have hstep : Int.shiftRight (Int.ofNat k) 31 = Int.ofNat 0 := by
        show Int.ofNat (k >>> 31) = Int.ofNat 0
        rw [hsh]
      rw [hstep, if_pos (by rw [Int.ofNat_eq_natCast]; exact_mod_cast Nat.pos_of_ne_zero hk0)]
      show Int.lor (Int.ofNat 0) (Int.ofNat 1) = 1
      simp [Int.lor]
    | negSucc k =>
      have hk : k < 2 ^ 31 := by
        have : (Int.negSucc k) = -(k + 1 : ℕ) := rfl
        rw [this] at h1
        have h31 : ((k : Int) + 1) ≤ 2 ^ 31 := by push_cast at h1 ⊢; linarith
        have : (k : Int) < 2 ^ 31 := by linarith
        exact_mod_cast this
      have hsh : k >>> 31 = 0 := by
        rw [Nat.shiftRight_eq_div_pow]
        exact Nat.div_eq_of_lt hk
      have hstep : Int.shiftRight (Int.negSucc k) 31 = Int.negSucc 0 := by
        show Int.negSucc (k >>> 31) = Int.negSucc 0
        rw [hsh]
      have hneg : ¬(0 < Int.negSucc k) :=
        not_lt.2 (le_of_lt (Int.negSucc_lt_zero k))
      rw [hstep, if_neg hneg]
      show Int.lor (Int.negSucc 0) (Int.ofNat 1) = Int.negSucc 0
      simp [Int.lor, Nat.ldiff, Nat.bitwise]

lemma mediant_eq {p q r s : ℚ} (hq : 0 < q) (hs : 0 < s) (h : p / q = r / s) :
    (p + r) / (q + s) = p / q := by
  rw [div_eq_div_iff (ne_of_gt hq) (ne_of_gt hs)] at h
  rw [div_eq_div_iff (by positivity) (ne_of_gt hq)]
  linarith

/-- The single inner step preserves positivity of all three denominators and
the bracketing property, and establishes the mediant property. -/
lemma step_preserves (m : ℚ) (s : RState) (hb : 0 < s.b) (h : bracketInv m s) :
    0 < (innerStep m s).b ∧ bracketInv m (innerStep m s) ∧
      mediantInv (innerStep m s) := by
  obtain ⟨hlB, huB, hl, hu⟩ := h
  have hbne : s.b ≠ 0 := ne_of_gt hb
  by_cases hc : (s.a : ℚ) / s.b < m
  · rw [innerStep_of_lt m s hbne hc]
    exact ⟨add_pos hb huB, ⟨hb, huB, hc.le, hu⟩, rfl, rfl⟩
  · rw [innerStep_of_ge m s hbne (not_lt.1 hc)]
    exact ⟨add_pos hb hlB, ⟨hlB, hb, hl, not_lt.1 hc⟩, by ring, by ring⟩

/-- Counterexample to C4 as stated: the bracketing invariant on the two
bounds alone (positive denominators, enclosure) is not preserved when the
candidate's denominator `b` is negative: the `ab < mantissa` branch installs
`(a, b)` as the new lower bound, whose denominator is not positive. -/
theorem c4_counterexample :
    bracketInv (1/2) ⟨1, -1, 0, 1, 1, 1⟩ ∧
    ¬ bracketInv (1/2) (innerStep (1/2) ⟨1, -1, 0, 1, 1, 1⟩) := by
  have hstep : innerStep (1/2) ⟨1, -1, 0, 1, 1, 1⟩ = ⟨2, 0, 1, -1, 1, 1⟩ := by
    norm_num [innerStep, ratio, dlt]
  rw [hstep]
  norm_num [bracketInv]

/-- C4 (amended): the bracketing invariant, strengthened with positivity of
the candidate denominator `b` (which the mediant steps themselves maintain),
is preserved by every inner step: positive bound denominators, enclosure of
the target, and `0 < b` all hold again after the step. -/
theorem c4_invariant_preserved (m : ℚ) (s : RState) (hb : 0 < s.b)
    (h : bracketInv m s) :
    0 < (innerStep m s).b ∧ bracketInv m (innerStep m s) :=
  ⟨(step_preserves m s hb h).1, (step_preserves m s hb h).2.1⟩

/-- Witness for C4 at the spec's canonical entry state. -/
theorem c4_invariant_preserved_witness :
    0 < (innerStep (1/2) ⟨0, 1, 0, 1, 1, 1⟩).b ∧
    bracketInv (1/2) (innerStep (1/2) ⟨0, 1, 0, 1, 1, 1⟩) :=
  c4_invariant_preserved (1/2) ⟨0, 1, 0, 1, 1, 1⟩ (by decide)
    ⟨by decide, by decide, by norm_num, by norm_num⟩

/-- Counterexample to C5 as stated: with positive denominators and bounds
enclosing the target, a mediant step need not shrink the bracketing
interval: a candidate far below the interval becomes the new lower bound and
the interval grows (from length 1 to length 6 here). -/
theorem c5_counterexample :
    bracketInv (1/2) ⟨-5, 1, 0, 1, 1, 1⟩ ∧
    width ⟨-5, 1, 0, 1, 1, 1⟩ < width (innerStep (1/2) ⟨-5, 1, 0, 1, 1, 1⟩) := by
  have hstep : innerStep (1/2) ⟨-5, 1, 0, 1, 1, 1⟩ = ⟨-4, 2, -5, 1, 1, 1⟩ := by
    norm_num [innerStep, ratio, dlt]
  rw [hstep]
  norm_num [bracketInv, width]

/-- C5 (amended): when additionally the candidate is the mediant of the two
bounds (as it is after every executed step) and its ratio differs from the
target, the candidate lies strictly between the bounds and the executed
mediant step strictly shrinks the bracketing interval in exact rational
arithmetic. -/
theorem c5_interval_shrinks (m : ℚ) (s : RState) (h : bracketInv m s)
    (hM : mediantInv s) (hne : (s.a : ℚ) / s.b ≠ m) :
    ((s.lowerA : ℚ) / s.lowerB < (s.a : ℚ) / s.b ∧
      (s.a : ℚ) / s.b < (s.upperA : ℚ) / s.upperB) ∧
    width (innerStep m s) < width s := by
  obtain ⟨hlB, huB, hl, hu⟩ := h
  obtain ⟨hMa, hMb⟩ := hM
  have hlBq : (0 : ℚ) < (s.lowerB : ℚ) := by exact_mod_cast hlB
  have huBq : (0 : ℚ) < (s.upperB : ℚ) := by exact_mod_cast huB
  have hb : 0 < s.b := by rw [hMb]; exact add_pos hlB huB
  have hbne : s.b ≠ 0 := ne_of_gt hb
  have hcand : (s.a : ℚ) / s.b =
      ((s.lowerA : ℚ) + (s.upperA : ℚ)) / ((s.lowerB : ℚ) + (s.upperB : ℚ)) := by
    rw [hMa, hMb]
    push_cast
    rfl
  have hstrict : (s.lowerA : ℚ) / s.lowerB < (s.upperA : ℚ) / s.upperB := by
    rcases lt_or_eq_of_le (le_trans hl hu) with hlt | heq
    · exact hlt
    · exfalso
      apply hne
      rw [hcand, mediant_eq hlBq huBq heq]
      exact le_antisymm hl (heq.symm ▸ hu)
  have hlow : (s.lowerA : ℚ) / s.lowerB < (s.a : ℚ) / s.b := by
    rw [hcand]
    exact mediant_lt_left hlBq huBq hstrict
  have hhigh : (s.a : ℚ) / s.b < (s.upperA : ℚ) / s.upperB := by
    rw [hcand]
    exact mediant_lt_right hlBq huBq hstrict
  refine ⟨⟨hlow, hhigh⟩, ?_⟩
  by_cases hc : (s.a : ℚ) / s.b < m
  · rw [innerStep_of_lt m s hbne hc]
    simp only [width]
    linarith
  · rw [innerStep_of_ge m s hbne (not_lt.1 hc)]
    simp only [width]
    linarith

/-- Witness for C5: candidate `1/2` (the mediant of `0/1` and `1/1`),
target `2/3`. -/
theorem c5_interval_shrinks_witness :
    (((0 : Int) : ℚ) / ((1 : Int) : ℚ) < ((1 : Int) : ℚ) / ((2 : Int) : ℚ) ∧
      ((1 : Int) : ℚ) / ((2 : Int) : ℚ) < ((1 : Int) : ℚ) / ((1 : Int) : ℚ)) ∧
    width (innerStep (2/3) ⟨1, 2, 0, 1, 1, 1⟩) < width ⟨1, 2, 0, 1, 1, 1⟩ :=
  c5_interval_shrinks (2/3) ⟨1, 2, 0, 1, 1, 1⟩
    ⟨by decide, by decide, by norm_num, by norm_num⟩ ⟨by decide, by decide⟩
    (by norm_num)

/-! Lemmas for the termination proof (C1): the cross-determinant `Dt` is
invariant under executed steps, the denominator product `Pr` grows, and the
candidate is within `Dt / Pr` of the target. -/

lemma step_dt (m : ℚ) (s : RState) (hM : mediantInv s) :
    Dt (innerStep m s) = Dt s := by
  obtain ⟨hMa, hMb⟩ := hM
  rw [innerStep]
  split
  · simp only [Dt]
    rw [hMa, hMb]
    ring
  · simp only [Dt]
    rw [hMa, hMb]
    ring

lemma step_pr (m : ℚ) (s : RState) (hM : mediantInv s) (hlB : 0 < s.lowerB)
    (huB : 0 < s.upperB) :
    Pr s + 1 ≤ Pr (innerStep m s) := by
  obtain ⟨hMa, hMb⟩ := hM
  rw [innerStep]
  split
  · simp only [Pr]
    rw [hMb]
    nlinarith
  · simp only [Pr]
    rw [hMb]
    nlinarith

lemma cand_close (m : ℚ) (s : RState) (h : SInv m s) :
    |(s.a : ℚ) / s.b - m| ≤ (Dt s : ℚ) / (Pr s : ℚ) := by
  obtain ⟨hb, ⟨hlB, huB, hl, hu⟩, hMa, hMb⟩ := h
  have hlBq : (0 : ℚ) < (s.lowerB : ℚ) := by exact_mod_cast hlB
  have huBq : (0 : ℚ) < (s.upperB : ℚ) := by exact_mod_cast huB
  have hlBne : (s.lowerB : ℚ) ≠ 0 := ne_of_gt hlBq
  have huBne : (s.upperB : ℚ) ≠ 0 := ne_of_gt huBq
  have hcand : (s.a : ℚ) / s.b =
      ((s.lowerA : ℚ) + (s.upperA : ℚ)) / ((s.lowerB : ℚ) + (s.upperB : ℚ)) := by
    rw [hMa, hMb]
    push_cast
    rfl
  have hlu : (s.lowerA : ℚ) / s.lowerB ≤ (s.upperA : ℚ) / s.upperB := le_trans hl hu
  have h1 : (s.lowerA : ℚ) / s.lowerB ≤ (s.a : ℚ) / s.b := by
    rw [hcand]
    exact mediant_le_left hlBq huBq hlu
  have h2 : (s.a : ℚ) / s.b ≤ (s.upperA : ℚ) / s.upperB := by
    rw [hcand]
    exact mediant_le_right hlBq huBq hlu
  have hw : (s.upperA : ℚ) / s.upperB - (s.lowerA : ℚ) / s.lowerB =
      (Dt s : ℚ) / (Pr s : ℚ) := by
    simp only [Dt, Pr]
    push_cast
    field_simp
    ring
  rw [abs_sub_le_iff, ← hw]
  constructor
  · linarith
  · linarith

lemma guard_ne (m p : ℚ) (s : RState) (hp : 0 < p) (hbne : s.b ≠ 0)
    (hg : outerCond m p s = true) : (s.a : ℚ) / s.b ≠ m := by
  rw [outerCond_eq_of_ne_zero m p s hbne] at hg
  simp only [decide_eq_true_eq] at hg
  intro hEq
  rw [hEq, sub_self, abs_zero] at hg
  linarith

lemma deq_false_of_ne (m : ℚ) (s : RState) (hbne : s.b ≠ 0)
    (hne : (s.a : ℚ) / s.b ≠ m) : deq (ratio s.a s.b) m = false := by
  rw [ratio_of_ne_zero _ _ hbne]
  simp [deq, hne]

lemma batch_preserves (m : ℚ) (n : Nat) (s : RState) (h : SInv m s) :
    SInv m (innerBatch m n s) ∧ Dt (innerBatch m n s) = Dt s ∧
      Pr s ≤ Pr (innerBatch m n s) := by
  induction n generalizing s with
  | zero => exact ⟨h, rfl, le_refl _⟩
  | succ k ih =>
    rw [innerBatch]
    by_cases he : deq (ratio s.a s.b) m = true
    · rw [if_pos he]
      exact ⟨h, rfl, le_refl _⟩
    · rw [if_neg he]
      obtain ⟨hb, hB, hM⟩ := h
      have hstep := step_preserves m s hb hB
      obtain ⟨h1, h2, h3⟩ := ih (innerStep m s) ⟨hstep.1, hstep.2.1, hstep.2.2⟩
      refine ⟨h1, ?_, ?_⟩
      · rw [h2, step_dt m s hM]
      · calc Pr s ≤ Pr s + 1 := by linarith
          _ ≤ Pr (innerStep m s) := step_pr m s hM hB.1 hB.2.1
          _ ≤ _ := h3

lemma batch_progress (m p : ℚ) (n : Nat) (s : RState) (hp : 0 < p)
    (h : SInv m s) (hg : outerCond m p s = true) (hn : 1 ≤ n) :
    SInv m (innerBatch m n s) ∧ Dt (innerBatch m n s) = Dt s ∧
      Pr s + 1 ≤ Pr (innerBatch m n s) := by
  obtain ⟨k, rfl⟩ : ∃ k, n = k + 1 := ⟨n - 1, by omega⟩
  obtain ⟨hb, hB, hM⟩ := h
  have hbne : s.b ≠ 0 := ne_of_gt hb
  have hdeq : deq (ratio s.a s.b) m = false :=
    deq_false_of_ne m s hbne (guard_ne m p s hp hbne hg)
  rw [innerBatch, hdeq]
  simp only [Bool.false_eq_true, if_false]
  have hstep := step_preserves m s hb hB
  obtain ⟨h1, h2, h3⟩ :=
    batch_preserves m k (innerStep m s) ⟨hstep.1, hstep.2.1, hstep.2.2⟩
  refine ⟨h1, by rw [h2, step_dt m s hM], ?_⟩
  calc Pr s + 1 ≤ Pr (innerStep m s) := step_pr m s hM hB.1 hB.2.1
    _ ≤ _ := h3

lemma batch_establishes (m p : ℚ) (n : Nat) (s : RState) (hp : 0 < p)
    (hb : 0 < s.b) (hB : bracketInv m s) (hg : outerCond m p s = true)
    (hn : 1 ≤ n) : SInv m (innerBatch m n s) := by
  obtain ⟨k, rfl⟩ : ∃ k, n = k + 1 := ⟨n - 1, by omega⟩
  have hbne : s.b ≠ 0 := ne_of_gt hb
  have hdeq : deq (ratio s.a s.b) m = false :=
    deq_false_of_ne m s hbne (guard_ne m p s hp hbne hg)
  rw [innerBatch, hdeq]
  simp only [Bool.false_eq_true, if_false]
  have hstep := step_preserves m s hb hB
  exact (batch_preserves m k (innerStep m s) ⟨hstep.1, hstep.2.1, hstep.2.2⟩).1

lemma run_returns_of_guard_false (m p : ℚ) (micro : Int) (s : RState)
    (hb : 0 < s.b) (hg : ¬ outerCond m p s = true) :
    runApprox m p micro 1 s = some (s.a, s.b) ∧ |(s.a : ℚ) / s.b - m| < p := by
  constructor
  · rw [runApprox, if_neg hg]
  · have hfalse : outerCond m p s = false := by simpa using hg
    rw [outerCond_eq_of_ne_zero m p s (ne_of_gt hb)] at hfalse
    simp only [decide_eq_false_iff_not, not_le] at hfalse
    exact hfalse

lemma run_terminates_aux (m p : ℚ) (micro : Int) (hp : 0 < p)
    (hm : 1 ≤ micro) :
    ∀ (k : Nat) (s : RState), SInv m s → (Dt s : ℚ) < p * ((Pr s : ℚ) + k) →
    ∃ fuel a b, runApprox m p micro fuel s = some (a, b) ∧ 0 < b ∧
      |(a : ℚ) / b - m| < p := by
  intro k
  induction k with
  | zero =>
    intro s hs hbound
    by_cases hg : outerCond m p s = true
    · exfalso
      obtain ⟨hb, hB, hM⟩ := hs
      have hclose := cand_close m s ⟨hb, hB, hM⟩
      rw [outerCond_eq_of_ne_zero m p s (ne_of_gt hb)] at hg
      simp only [decide_eq_true_eq] at hg
      have hPr : (0 : ℚ) < (Pr s : ℚ) := by
        have : 0 < Pr s := mul_pos hB.1 hB.2.1
        exact_mod_cast this
      have hle : p ≤ (Dt s : ℚ) / (Pr s : ℚ) := le_trans hg hclose
      rw [le_div_iff₀ hPr] at hle
      simp only [Nat.cast_zero, add_zero] at hbound
      linarith
    · obtain ⟨h1, h2⟩ := run_returns_of_guard_false m p micro s hs.1 hg
      exact ⟨1, s.a, s.b, h1, hs.1, h2⟩
  | succ k ih =>
    intro s hs hbound
    by_cases hg : outerCond m p s = true
    · have hmn : 1 ≤ micro.toNat := by omega
      obtain ⟨h1, h2, h3⟩ := batch_progress m p micro.toNat s hp hs hg hmn
      have h3q : (Pr s : ℚ) + 1 ≤ (Pr (innerBatch m micro.toNat s) : ℚ) := by
        exact_mod_cast h3
      have hb2 : (Dt (innerBatch m micro.toNat s) : ℚ) <
          p * ((Pr (innerBatch m micro.toNat s) : ℚ) + k) := by
        rw [h2]
        have hmono : p * ((Pr s : ℚ) + 1 + k) ≤
            p * ((Pr (innerBatch m micro.toNat s) : ℚ) + k) :=
          mul_le_mul_of_nonneg_left (by linarith) hp.le
        have hring : p * ((Pr s : ℚ) + (k + 1 : Nat)) =
            p * ((Pr s : ℚ) + 1 + k) := by
          push_cast
          ring
        rw [hring] at hbound
        linarith
      obtain ⟨fuel, a, b, hrun, hbpos, hclose⟩ :=
        ih (innerBatch m micro.toNat s) h1 hb2
      refine ⟨fuel + 1, a, b, ?_, hbpos, hclose⟩
      rw [runApprox, if_pos hg]
      exact hrun
    · obtain ⟨h1, h2⟩ := run_returns_of_guard_false m p micro s hs.1 hg
      exact ⟨1, s.a, s.b, h1, hs.1, h2⟩

/-- C1 (amended): for `precision > 0`, `microIterations >= 1`, positive
denominators `b`, `lowerB`, `upperB`, and bracketing fractions enclosing
`mantissa`, the loop terminates (some finite fuel returns a pair) and the
returned pair `(a, b)` has positive denominator and satisfies
`|a/b - mantissa| < precision` in exact rational arithmetic. -/
theorem c1_terminates (m p : ℚ) (micro : Int) (s : RState) (hp : 0 < p)
    (hm : 1 ≤ micro) (hb : 0 < s.b) (hB : bracketInv m s) :
    ∃ fuel a b, runApprox m p micro fuel s = some (a, b) ∧ 0 < b ∧
      |(a : ℚ) / b - m| < p := by
  by_cases hg : outerCond m p s = true
  · have hmn : 1 ≤ micro.toNat := by omega
    have hsInv : SInv m (innerBatch m micro.toNat s) :=
      batch_establishes m p micro.toNat s hp hb hB hg hmn
    obtain ⟨k, hk⟩ := exists_nat_gt ((Dt (innerBatch m micro.toNat s) : ℚ) / p)
    have hbound : (Dt (innerBatch m micro.toNat s) : ℚ) <
        p * ((Pr (innerBatch m micro.toNat s) : ℚ) + k) := by
      have hPr : (0 : ℚ) ≤ (Pr (innerBatch m micro.toNat s) : ℚ) := by
        have : 0 < Pr (innerBatch m micro.toNat s) :=
          mul_pos hsInv.2.1.1 hsInv.2.1.2.1
        exact_mod_cast this.le
      rw [div_lt_iff₀ hp] at hk
      have hmono : p * (k : ℚ) ≤
          p * ((Pr (innerBatch m micro.toNat s) : ℚ) + k) :=
        mul_le_mul_of_nonneg_left (by linarith) hp.le
      have : (Dt (innerBatch m micro.toNat s) : ℚ) < p * (k : ℚ) := by
        rw [mul_comm]
        exact hk
      linarith
    obtain ⟨fuel, a, b, hrun, hbpos, hclose⟩ :=
      run_terminates_aux m p micro hp hm k (innerBatch m micro.toNat s) hsInv hbound
    refine ⟨fuel + 1, a, b, ?_, hbpos, hclose⟩
    rw [runApprox, if_pos hg]
    exact hrun
  · obtain ⟨h1, h2⟩ := run_returns_of_guard_false m p micro s hb hg
    exact ⟨1, s.a, s.b, h1, hb, h2⟩

/-- Witness for C1 at the spec's canonical input: candidate `0/1`, bounds
`0/1` and `1/1`, target `1/2`, precision `1/4`, one inner step per batch. -/
theorem c1_terminates_witness :
    ∃ fuel a b, runApprox (1/2) (1/4) 1 fuel ⟨0, 1, 0, 1, 1, 1⟩ = some (a, b) ∧
      0 < b ∧ |(a : ℚ) / b - 1/2| < 1/4 :=
  c1_terminates (1/2) (1/4) 1 ⟨0, 1, 0, 1, 1, 1⟩ (by norm_num) (by decide)
    (by decide) ⟨by decide, by decide, by norm_num, by norm_num⟩

/-- The absorbing divergent region of the C1 counterexample run: once the
denominator is stuck at `-1` with the lower bound `-1/0`, every step takes
the upper branch, decrements `a`, and keeps the guard true forever. -/
lemma c1_loop_lemma (fuel : Nat) : ∀ s : RState, s.b = -1 → s.lowerA = -1 →
    s.lowerB = 0 → s.a ≤ -2 → runApprox (1/2) (1/4) 1 fuel s = none := by
  induction fuel with
  | zero =>
    intro s _ _ _ _
    rfl
  | succ k ih =>
    intro s hb hlA hlB ha
    have hratio : ratio s.a s.b = .fin (-(s.a : ℚ)) := by
      rw [hb, ratio_of_ne_zero _ _ (by decide)]
      norm_num [div_neg]
    have h2 : (2 : ℚ) ≤ -(s.a : ℚ) := by
      have : (s.a : ℚ) ≤ -2 := by exact_mod_cast ha
      linarith
    have hg : outerCond (1/2) (1/4) s = true := by
      rw [outerCond, hratio]
      simp only [dsub, dabs, dge, decide_eq_true_eq]
      rw [abs_of_nonneg (by linarith)]
      linarith
    have hdeq : deq (ratio s.a s.b) (1/2) = false := by
      rw [hratio]
      simp only [deq, decide_eq_false_iff_not]
      intro hEq
      linarith
    have hdlt : dlt (ratio s.a s.b) (1/2) = false := by
      rw [hratio]
      simp only [dlt, decide_eq_false_iff_not, not_lt]
      linarith
    rw [runApprox, if_pos hg]
    have hbatch : innerBatch (1/2) (Int.toNat 1) s = innerStep (1/2) s := by
      show innerBatch (1/2) 1 s = innerStep (1/2) s
      rw [innerBatch, hdeq]
      simp [innerBatch]
    have hstep : innerStep (1/2) s =
        ⟨s.a + s.lowerA, s.b + s.lowerB, s.lowerA, s.lowerB, s.a, s.b⟩ := by
      rw [innerStep, hdlt]
      simp
    rw [hbatch, hstep]
    apply ih
    · show s.b + s.lowerB = -1
      rw [hb, hlB]
      decide
    · show s.lowerA = -1
      exact hlA
    · show s.lowerB = 0
      exact hlB
    · show s.a + s.lowerA ≤ -2
      rw [hlA]
      omega

lemma c1_run_s1 (fuel : Nat) :
    runApprox (1/2) (1/4) 1 fuel ⟨-1, 0, 0, 1, -1, -1⟩ = none := by
  cases fuel with
  | zero => rfl
  | succ k =>
    rw [runApprox]
    have hg : outerCond (1/2) (1/4) ⟨-1, 0, 0, 1, -1, -1⟩ = true := by
      norm_num [outerCond, ratio, dsub, dabs, dge]
    rw [if_pos hg]
    have hbatch : innerBatch (1/2) (Int.toNat 1) ⟨-1, 0, 0, 1, -1, -1⟩ =
        ⟨-2, -1, -1, 0, -1, -1⟩ := by
      norm_num [innerBatch, innerStep, ratio, deq, dlt]
    rw [hbatch]
    exact c1_loop_lemma k _ (by decide) (by decide) (by decide) (by decide)

lemma c1_run_s0 (fuel : Nat) :
    runApprox (1/2) (1/4) 1 fuel ⟨0, 1, 0, 1, -1, -1⟩ = none := by
  cases fuel with
  | zero => rfl
  | succ k =>
    rw [runApprox]
    have hg : outerCond (1/2) (1/4) ⟨0, 1, 0, 1, -1, -1⟩ = true := by
      norm_num [outerCond, ratio, dsub, dabs, dge, abs_of_nonneg]
    rw [if_pos hg]
    have hbatch : innerBatch (1/2) (Int.toNat 1) ⟨0, 1, 0, 1, -1, -1⟩ =
        ⟨-1, 0, 0, 1, -1, -1⟩ := by
      norm_num [innerBatch, innerStep, ratio, deq, dlt]
    rw [hbatch]
    exact c1_run_s1 k

/-- Counterexample to C1 as stated: the claim only requires the three
denominators to be nonzero.  With `upperB = -1` (upper bound `(-1) / (-1)`, whose
ratio `1` still encloses the target from above), `precision = 1/4 > 0`,
`microIterations = 1`, and the bracketing property holding at entry, the run
never terminates: after two steps the denominator is stuck at `-1` and the
candidate ratio grows without bound. -/
theorem c1_counterexample :
    ((0 : ℚ) < 1/4 ∧ 1 ≤ (1 : Int) ∧
      ((1 : Int) ≠ 0 ∧ (1 : Int) ≠ 0 ∧ (-1 : Int) ≠ 0) ∧
      ((0 : Int) : ℚ) / ((1 : Int) : ℚ) ≤ 1/2 ∧
      (1/2 : ℚ) ≤ ((-1 : Int) : ℚ) / ((-1 : Int) : ℚ)) ∧
    ∀ fuel : Nat, runApprox (1/2) (1/4) 1 fuel ⟨0, 1, 0, 1, -1, -1⟩ = none :=
  ⟨⟨by norm_num, by decide, ⟨by decide, by decide, by decide⟩, by norm_num,
    by norm_num⟩, c1_run_s0⟩

/-- Witness for C6, covering the spec's examples and the `INT_MIN` edge case. -/
theorem c6_intSign_correct_witness :
    intSign (-2147483648) 7 = -1 ∧ intSign 5 = 1 ∧ intSign 0 3 = 3 := by
  refine ⟨?_, ?_, ?_⟩
  · have h := (c6_intSign_correct (-2147483648) 7 (by decide) (by decide)).1
    norm_num at h
    exact h
  · have h := (c6_intSign_correct 5 0 (by decide) (by decide)).1
    norm_num at h
    exact h
  · have h := (c6_intSign_correct 0 3 (by decide) (by decide)).1
    norm_num at h
    exact h

end SEPCMaths
